import Mathlib

/-!
Verification development for the minesweeper rules engine
(src/src/model.rs, src/src/controller.rs).

The repository holds two layers:

* `src/src/model.rs` defines `Field` (aliased `MinesweeperModel`), a grid of
  `Zone`s with `flag_zone` / `unflag_zone` / `reveal_zone` / `adjacent_positions`
  / `set_counts` and a random constructor `Field::new`.  It is embedded below
  as `Zone` / `Field` and the functions on them, with Rust release-build
  semantics: `usize` arithmetic wraps modulo 2^64, `Vec` indexing out of range
  and failed `assert!`/`unwrap` abort (modelled by `Option.none`).

* `src/src/controller.rs` defines `MinesweeperController` over a model API
  (`ErrorKind`, `ModelResult`, `reveal_at`, `mines_adjacent_to`,
  `is_flagged_at`, `change_flag_at`, `has_mine_at`, `adjacent_positions` on
  `u32` coordinates, `num_flagged`) that it imports from `crate::model` but
  that is absent from the sources: `model.rs` only has the older `Field` API
  with different names, signatures and behaviour.  That missing grid API is
  modelled from the spec (each such definition carries a
  `Modelled from the spec:` doc comment); the controller itself is embedded
  from `controller.rs` as written.
-/

/-! ## Part 1: the legacy grid model, from src/src/model.rs -/

/-- Cell state of the legacy model; embeds `struct Zone` of model.rs
(fields `flagged`, `revealed`, `has_mine`, `adj_mine_count`). -/
structure Zone where
  flagged : Bool
  revealed : Bool
  hasMine : Bool
  adjMineCount : Nat
deriving DecidableEq, Repr

/-- Embeds `Zone::new(has_mine)` of model.rs. -/
def Zone.new (hasMine : Bool) : Zone :=
  { flagged := false, revealed := false, hasMine := hasMine, adjMineCount := 0 }

/-- Embeds `struct Field` of model.rs: derived counters plus the
column-major nested-vector grid (`grid[x][y]`). -/
structure FieldM where
  numMines : Nat
  numFlagged : Nat
  numCorrectlyFlagged : Nat
  exploded : Bool
  grid : List (List Zone)
deriving DecidableEq, Repr

/-- The modulus of Rust `usize` on a 64-bit target. -/
def usizeMod : Nat := 18446744073709551616

/-- Rust release-build `x - 1` on `usize`: wraps modulo 2^64
(debug builds panic on the same underflow). -/
def usub1 (x : Nat) : Nat := (x + (usizeMod - 1)) % usizeMod

/-- Rust release-build `x + 1` on `usize`: wraps modulo 2^64. -/
def uadd1 (x : Nat) : Nat := (x + 1) % usizeMod

/-- The Rust inclusive range `a..=b` as a list (empty when `a > b`). -/
def rangeIncl (a b : Nat) : List Nat :=
  if a ≤ b then (List.range (b + 1 - a)).map (a + ·) else []

/-- Embeds `Field::get_zone_at` of model.rs: `self.grid.get(x)?.get(y)`. -/
def getZoneAt (f : FieldM) (x y : Nat) : Option Zone :=
  (f.grid.get? x).bind (fun col => col.get? y)

/-- Embeds `Field::height` of model.rs: `self.grid.len()`.  Because the grid
is built column-major (`grid[x][y]`), this is actually the WIDTH used at
construction. -/
def heightF (f : FieldM) : Nat := f.grid.length

/-- Embeds `Field::width` of model.rs: `self.grid[0].len()`.  Because the grid
is built column-major, this is actually the HEIGHT used at construction.
(The Rust indexing `grid[0]` panics on an empty grid; `Field::new` asserts
`width > 0`, so the default never fires in the embedded uses.) -/
def widthF (f : FieldM) : Nat := (f.grid.headD []).length

/-- The candidate neighbour coordinates built by `Field::adjacent_positions`
before the bounds filter, with release-build wrapping `usize` arithmetic:
for `x = 0` the range `(x-1)..=(x+1)` becomes `(2^64-1)..=1`, which is empty. -/
def adjCandidates (x y : Nat) (diag : Bool) : List (Nat × Nat) :=
  if diag then
    (rangeIncl (usub1 x) (uadd1 x)).flatMap (fun sx =>
      (rangeIncl (usub1 y) (uadd1 y)).filterMap (fun sy =>
        if sx ≠ x ∨ sy ≠ y then some (sx, sy) else none))
  else
    [(x, usub1 y), (usub1 x, y), (uadd1 x, y), (x, uadd1 y)]

/-- Embeds `Field::adjacent_positions` of model.rs: candidate neighbours
filtered to those whose `get_zone_at` is `Some`. -/
def adjacentPositionsF (f : FieldM) (x y : Nat) (diag : Bool) : List (Nat × Nat) :=
  (adjCandidates x y diag).filter (fun p => (getZoneAt f p.1 p.2).isSome)

/-- Replace the zone at `(x, y)`; `none` models the panic of the direct
indexing `self.grid[x][y]` when the index is out of range. -/
def setZoneAt (f : FieldM) (x y : Nat) (z : Zone) : Option FieldM :=
  match getZoneAt f x y with
  | none => none
  | some _ =>
    some { f with grid := f.grid.set x ((f.grid.getD x []).set y z) }

/-- Embeds `Zone::set_adj_mine_count` of model.rs, whose `assert!(value <= 8)`
aborts (here `none`) when the value exceeds 8. -/
def setAdjMineCount (z : Zone) (v : Nat) : Option Zone :=
  if v ≤ 8 then some { z with adjMineCount := v } else none

/-- One mutation step of the reset loop in `Field::set_counts`:
`self.grid[x][y].set_adj_mine_count(0)`. -/
def resetZoneCount (f : FieldM) (p : Nat × Nat) : Option FieldM :=
  match getZoneAt f p.1 p.2 with
  | none => none
  | some z =>
    match setAdjMineCount z 0 with
    | none => none
    | some z2 => setZoneAt f p.1 p.2 z2

/-- One mutation step of the increment loop in `Field::set_counts`:
`zone.set_adj_mine_count(zone.adj_mine_count() + 1)` on `self.grid[adj_x][adj_y]`. -/
def incrZoneCount (f : FieldM) (p : Nat × Nat) : Option FieldM :=
  match getZoneAt f p.1 p.2 with
  | none => none
  | some z =>
    match setAdjMineCount z (z.adjMineCount + 1) with
    | none => none
    | some z2 => setZoneAt f p.1 p.2 z2

/-- The index pairs visited by the reset loop of `Field::set_counts`:
`for x in 0..self.width() { for y in 0..self.height() { ... } }`
(note `width()`/`height()` return the transposed dimensions). -/
def resetPairs (f : FieldM) : List (Nat × Nat) :=
  (List.range (widthF f)).flatMap (fun x => (List.range (heightF f)).map (fun y => (x, y)))

/-- Embeds `Field::set_counts` of model.rs: reset every count to 0, then for
each mine placement increment all its diagonal-inclusive adjacent positions. -/
def setCounts (f : FieldM) (placements : List (Nat × Nat)) : Option FieldM :=
  match (resetPairs f).foldlM resetZoneCount f with
  | none => none
  | some f1 =>
    placements.foldlM
      (fun acc pl => (adjacentPositionsF acc pl.1 pl.2 true).foldlM incrZoneCount acc) f1

/-- Lexicographic order on coordinate pairs, the iteration order of Rust's
`BTreeSet<(usize, usize)>`. -/
def coordLt (p q : Nat × Nat) : Bool :=
  p.1 < q.1 || (p.1 = q.1 && p.2 < q.2)

/-- Insertion into a sorted duplicate-free list, mirroring
`BTreeSet::insert`. -/
def insertSorted : List (Nat × Nat) → (Nat × Nat) → List (Nat × Nat)
  | [], p => [p]
  | q :: rest, p =>
    if p = q then q :: rest
    else if coordLt p q then p :: q :: rest
    else q :: insertSorted rest p

/-- The fueled rejection-sampling loop of `Field::generate_placements`:
`while coordinates.len() < num_mines { insert a random in-range draw }`.
The random generator is modelled by the draw stream `stream`; each draw is
reduced into range exactly as `gen_range(0, bound)` guarantees.  `none`
means the loop is still running after `fuel` iterations — the Rust loop has
no other exit. -/
def genPlacementsGo (stream : Nat → Nat × Nat) (numMines w h : Nat) :
    Nat → Nat → List (Nat × Nat) → Option (List (Nat × Nat))
  | fuel, i, acc =>
    if numMines ≤ acc.length then some acc
    else
      match fuel with
      | 0 => none
      | fuel' + 1 =>
        genPlacementsGo stream numMines w h fuel' (i + 1)
          (insertSorted acc ((stream i).1 % w, (stream i).2 % h))

/-- Embeds `Field::generate_placements` of model.rs (fueled; see
`genPlacementsGo`). -/
def generatePlacements (stream : Nat → Nat × Nat) (numMines w h fuel : Nat) :
    Option (List (Nat × Nat)) :=
  genPlacementsGo stream numMines w h fuel 0 []

/-- Embeds `Field::generate_grid` of model.rs: `width` columns of `height`
zones, mined where the placement set contains the coordinates. -/
def generateGrid (w h : Nat) (placements : List (Nat × Nat)) : List (List Zone) :=
  (List.range w).map (fun x => (List.range h).map (fun y => Zone.new (placements.contains (x, y))))

/-- Embeds `Field::new` of model.rs: assert the dimensions positive, draw the
placements, build the grid, then run `set_counts`.  `none` models an abort or
a still-running placement loop. -/
def fieldNew (w h numMines : Nat) (stream : Nat → Nat × Nat) (fuel : Nat) : Option FieldM :=
  if w = 0 ∨ h = 0 then none
  else
    match generatePlacements stream numMines w h fuel with
    | none => none
    | some placements =>
      setCounts
        { numMines := numMines, numFlagged := 0, numCorrectlyFlagged := 0,
          exploded := false, grid := generateGrid w h placements }
        placements

/-- Embeds `Field::explode` of model.rs. -/
def explodeF (f : FieldM) : FieldM := { f with exploded := true }

/-- Embeds `Field::reveal_zone` of model.rs together with its inner
`for (adj_x, adj_y) in self.adjacent_positions(x, y, false)` loop, as one
fuel recursion producing the pair (single-cell reveal, loop over a list of
positions).  Semantics of one reveal: look up the zone (`Err(())`, i.e.
`Except.error`, when out of bounds), return `Ok` if already revealed,
otherwise mark it revealed; a mine also sets `exploded`, and a zero-count
non-mined zone runs the loop over its orthogonal adjacent positions, which
recursively reveals every position that is non-mined with count 0 (the
model-level cascade), aborting (`unwrap`, modelled `none`) if that returns
`Err`.  One fuel unit is spent per nested call; any fuel at least the depth
of the recursion (bounded by twice the number of cells) is enough, and the
theorems below hold for every fuel. -/
def revealPair : Nat →
    (FieldM → Nat → Nat → Option (Except Unit FieldM)) ×
      (FieldM → List (Nat × Nat) → Option (Except Unit FieldM))
  | 0 => (fun _ _ _ => none, fun _ _ => none)
  | fuel + 1 =>
    (fun f x y =>
      match getZoneAt f x y with
      | none => some (Except.error ())
      | some z =>
        if z.revealed then some (Except.ok f)
        else
          match setZoneAt f x y { z with revealed := true } with
          | none => none
          | some f1 =>
            if z.hasMine then some (Except.ok (explodeF f1))
            else if z.adjMineCount = 0 then
              (revealPair fuel).2 f1 (adjacentPositionsF f1 x y false)
            else some (Except.ok f1),
     fun f l =>
      match l with
      | [] => some (Except.ok f)
      | p :: rest =>
        match getZoneAt f p.1 p.2 with
        | none => none
        | some az =>
          if az.hasMine = false ∧ az.adjMineCount = 0 then
            match (revealPair fuel).1 f p.1 p.2 with
            | some (Except.ok f2) => (revealPair fuel).2 f2 rest
            | _ => none
          else (revealPair fuel).2 f rest)

/-- The single-cell (recursive) reveal of `Field::reveal_zone`; see
`revealPair`. -/
def revealZoneFuel (fuel : Nat) (f : FieldM) (x y : Nat) : Option (Except Unit FieldM) :=
  (revealPair fuel).1 f x y

/-- The adjacent-positions loop of `Field::reveal_zone`; see `revealPair`. -/
def revealListFuel (fuel : Nat) (f : FieldM) (l : List (Nat × Nat)) :
    Option (Except Unit FieldM) :=
  (revealPair fuel).2 f l

/-! ## Part 2: the grid-model API used by the controller, modelled from the spec

`src/src/controller.rs` begins with
`use crate::model::{ErrorKind::*, MinesweeperModel, ModelResult};` and calls
`new` (via main.rs, returning a `Result`), `is_flagged_at`, `change_flag_at`,
`has_mine_at`, `reveal_at`, `mines_adjacent_to`, `adjacent_positions` and
`num_flagged`, all on `u32` coordinates.  None of these exist in
src/src/model.rs (which holds the older `Field` API above), so this part of
the repository is missing from src/ and is modelled from spec sections 3,
4.1 and 7. -/

/-- Modelled from the spec: the two per-turn error kinds of §7 (`OutOfBounds`
and `NoOp`), the `ErrorKind` enum that controller.rs and main.rs import from
`crate::model`. -/
inductive ErrorKind where
  | OutOfBounds
  | NoOp
deriving DecidableEq, Repr

/-- Modelled from the spec: the Grid Model state of §3 — per-cell `has_mine`,
`flagged`, `revealed` and construction-time `adjacent_mine_count`, plus the
grid extent and the incrementally maintained `flagged_count`.  This is the
`MinesweeperModel` type that controller.rs wraps, absent from src/. -/
structure SModel where
  w : Nat
  h : Nat
  mine : Nat × Nat → Bool
  flaggedAt : Nat × Nat → Bool
  revealedAt : Nat × Nat → Bool
  adjCount : Nat × Nat → Nat
  flaggedCount : Nat

/-- Coordinates inside a `w × h` grid. -/
def inB (m : SModel) (x y : Nat) : Prop := x < m.w ∧ y < m.h

instance (m : SModel) (x y : Nat) : Decidable (inB m x y) := by
  unfold inB; infer_instance

/-- All coordinates of a `w × h` grid, as a finite set. -/
def allCoords (w h : Nat) : Finset (Nat × Nat) := Finset.range w ×ˢ Finset.range h

/-- Modelled from the spec: the in-bounds Moore (8-directional) neighbourhood
used by construction in §4.1 to compute `adjacent_mine_count`. -/
def mooreNeighbors (w h x y : Nat) : List (Nat × Nat) :=
  ([(-1, -1), (-1, 0), (-1, 1), (0, -1), (0, 1), (1, -1), (1, 0), (1, 1)] :
      List (Int × Int)).filterMap
    (fun d =>
      let nx : Int := (x : Int) + d.1
      let ny : Int := (y : Int) + d.2
      if 0 ≤ nx ∧ nx < (w : Int) ∧ 0 ≤ ny ∧ ny < (h : Int) then
        some (nx.toNat, ny.toNat)
      else none)

/-- Modelled from the spec: grid construction from an explicit deduplicated
mine set (§4.1) — no flags, nothing revealed, every cell's
`adjacent_mine_count` computed once as the number of mined Moore neighbours. -/
def constructS (w h : Nat) (mines : Finset (Nat × Nat)) : SModel :=
  { w := w, h := h,
    mine := fun c => c ∈ mines,
    flaggedAt := fun _ => false,
    revealedAt := fun _ => false,
    adjCount := fun c => ((mooreNeighbors w h c.1 c.2).filter (fun p => p ∈ mines)).length,
    flaggedCount := 0 }

/-- Modelled from the spec: `adjacent_positions(x, y, include_diagonals)` of
§4.1 — the in-bounds subset of the 4 orthogonal or 8 Moore neighbours. -/
def adjacentPositionsS (m : SModel) (x y : Nat) (diag : Bool) : List (Nat × Nat) :=
  (if diag then
      ([(-1, -1), (-1, 0), (-1, 1), (0, -1), (0, 1), (1, -1), (1, 0), (1, 1)] :
        List (Int × Int))
    else ([(0, -1), (-1, 0), (1, 0), (0, 1)] : List (Int × Int))).filterMap
    (fun d =>
      let nx : Int := (x : Int) + d.1
      let ny : Int := (y : Int) + d.2
      if 0 ≤ nx ∧ nx < (m.w : Int) ∧ 0 ≤ ny ∧ ny < (m.h : Int) then
        some (nx.toNat, ny.toNat)
      else none)

/-- Modelled from the spec: the pure query `has_mine(x, y)` of §4.1, `none`
signalling OutOfBounds (controller.rs consumes it as an `Option`). -/
def hasMineAtS (m : SModel) (x y : Nat) : Option Bool :=
  if inB m x y then some (m.mine (x, y)) else none

/-- Modelled from the spec: the pure query `is_flagged(x, y)` of §4.1. -/
def isFlaggedAtS (m : SModel) (x y : Nat) : Option Bool :=
  if inB m x y then some (m.flaggedAt (x, y)) else none

/-- Modelled from the spec: the pure query `adjacent_mine_count(x, y)` of
§4.1, the `mines_adjacent_to` method called by controller.rs. -/
def minesAdjacentToS (m : SModel) (x y : Nat) : Option Nat :=
  if inB m x y then some (m.adjCount (x, y)) else none

/-- Modelled from the spec: `set_flag(x, y, desired)` of §4.1 — OutOfBounds
off-grid, NoOp when the flag already equals `desired`, otherwise flip the
flag and adjust `flagged_count` by one. -/
def changeFlagAtS (m : SModel) (x y : Nat) (desired : Bool) :
    Except ErrorKind SModel :=
  if inB m x y then
    if m.flaggedAt (x, y) = desired then Except.error ErrorKind.NoOp
    else
      Except.ok
        { m with
          flaggedAt := Function.update m.flaggedAt (x, y) desired,
          flaggedCount := if desired then m.flaggedCount + 1 else m.flaggedCount - 1 }
  else Except.error ErrorKind.OutOfBounds

/-- Modelled from the spec: `reveal(x, y)` of §4.1 — OutOfBounds off-grid,
NoOp when already revealed, otherwise mark revealed and return whether the
cell held a mine; it does not cascade. -/
def revealAtS (m : SModel) (x y : Nat) : Except ErrorKind Bool × SModel :=
  if inB m x y then
    if m.revealedAt (x, y) then (Except.error ErrorKind.NoOp, m)
    else
      (Except.ok (m.mine (x, y)),
        { m with revealedAt := Function.update m.revealedAt (x, y) true })
  else (Except.error ErrorKind.OutOfBounds, m)

/-- Number of in-bounds cells not yet revealed. -/
def unrevealedCount (m : SModel) : Nat :=
  ((allCoords m.w m.h).filter (fun c => m.revealedAt c = false)).card

/-- Number of in-bounds cells revealed. -/
def revealedCount (m : SModel) : Nat :=
  ((allCoords m.w m.h).filter (fun c => m.revealedAt c = true)).card

/-- Outcome of the controller's cascading-reveal worklist loop: the final
model, a panic (the `Err(OutOfBounds) => panic!` arm), or fuel exhaustion
(`timeout` — shown below never to happen with fuel
`5 * unrevealedCount + stack length`). -/
inductive CascadeRes where
  | timeout
  | panic
  | done (m : SModel)

/-- Embeds the `while let Some((x, y)) = stack.pop()` loop of
`MinesweeperController::cascading_reveal_from` (controller.rs): pop a
coordinate, `reveal_at` it; on `Ok(_)` push every adjacent position whose own
`mines_adjacent_to` count is 0 (note: the filter inspects the neighbour's
count, not the popped cell's), on `Err(NoOp)` continue, on `Err(OutOfBounds)`
panic.  The list head is the top of the stack, so `Vec::extend` prepends the
new candidates in reverse order.  One fuel unit is spent per iteration. -/
def cascadeFuel : Nat → SModel → List (Nat × Nat) → CascadeRes
  | _, m, [] => CascadeRes.done m
  | 0, _, _ :: _ => CascadeRes.timeout
  | fuel + 1, m, (x, y) :: rest =>
    match revealAtS m x y with
    | (Except.ok _, m2) =>
      cascadeFuel fuel m2
        (((adjacentPositionsS m2 x y false).filter
            (fun p => minesAdjacentToS m2 p.1 p.2 == some 0)).reverse ++ rest)
    | (Except.error ErrorKind.NoOp, m2) => cascadeFuel fuel m2 rest
    | (Except.error ErrorKind.OutOfBounds, _) => CascadeRes.panic

/-- Embeds `struct MinesweeperController` of controller.rs: the wrapped model,
`num_correctly_flagged` and `exploded_mine`. -/
structure SController where
  model : SModel
  numCorrectlyFlagged : Nat
  explodedMine : Option (Nat × Nat)

/-- Embeds `MinesweeperController::new` of controller.rs. -/
def newController (m : SModel) : SController :=
  { model := m, numCorrectlyFlagged := 0, explodedMine := none }

/-- Embeds `MinesweeperController::won` of controller.rs:
`num_correctly_flagged == model.num_flagged()`. -/
def wonC (c : SController) : Bool :=
  c.numCorrectlyFlagged == c.model.flaggedCount

/-- Embeds `MinesweeperController::lost` of controller.rs, exactly as written:
`self.exploded_mine.is_none()`. -/
def lostC (c : SController) : Bool :=
  c.explodedMine.isNone

/-- Embeds `MinesweeperController::cascading_reveal_from` of controller.rs:
seed the stack with the orthogonal adjacent positions of the start cell and
run the worklist loop.  (`debug_assert!` is disabled in release builds and is
not modelled.)  The fuel `5 * unrevealedCount + stack length` is the loop
bound established by `cascadeFuel_done` below; `none` models the panic arm. -/
def cascadingRevealFrom (c : SController) (sx sy : Nat) : Option SController :=
  let seeds := adjacentPositionsS c.model sx sy false
  match cascadeFuel (5 * unrevealedCount c.model + seeds.length) c.model seeds with
  | CascadeRes.done m2 => some { c with model := m2 }
  | _ => none

/-- Embeds `MinesweeperController::reveal_zone_at` of controller.rs:
`reveal_at` the cell, propagating its errors unchanged (`?`); on a mine
record `exploded_mine`; on a non-mined cell whose `mines_adjacent_to` count
(`unwrap`: `none` would be a panic) is 0, run the cascading reveal.
The outer `Option` is `none` exactly when a panic would occur. -/
def revealZoneAtC (c : SController) (x y : Nat) :
    Option (Except ErrorKind Bool × SController) :=
  match revealAtS c.model x y with
  | (Except.error e, m2) => some (Except.error e, { c with model := m2 })
  | (Except.ok hasMine, m2) =>
    let c1 : SController := { c with model := m2 }
    if hasMine then
      some (Except.ok true, { c1 with explodedMine := some (x, y) })
    else
      match minesAdjacentToS m2 x y with
      | none => none
      | some n =>
        if n = 0 then
          (cascadingRevealFrom c1 x y).map (fun c2 => (Except.ok false, c2))
        else some (Except.ok false, c1)

/-- Embeds `MinesweeperController::toggle_flag_at` of controller.rs: read the
current flag state (`Err(())`, here `none`, when out of bounds), apply the
complemented state through `change_flag_at` (its `unwrap` never fires), and
when the cell is mined adjust `num_correctly_flagged` up or down.  Returns
whether a flag was added. -/
def toggleFlagAtC (c : SController) (x y : Nat) : Option (Bool × SController) :=
  match isFlaggedAtS c.model x y with
  | none => none
  | some b =>
    let addFlag := !b
    match changeFlagAtS c.model x y addFlag with
    | Except.error _ => none
    | Except.ok m2 =>
      match hasMineAtS m2 x y with
      | none => none
      | some mined =>
        let c1 : SController := { c with model := m2 }
        some (addFlag,
          if mined then
            if addFlag then
              { c1 with numCorrectlyFlagged := c1.numCorrectlyFlagged + 1 }
            else
              { c1 with numCorrectlyFlagged := c1.numCorrectlyFlagged - 1 }
          else c1)

/-! ## Part 3: derived counts, invariants and auxiliary state -/

/-- Count of flags sitting on mined cells, computed from the cell states. -/
def correctCard (m : SModel) : Nat :=
  ((allCoords m.w m.h).filter (fun p => m.flaggedAt p = true ∧ m.mine p = true)).card

/-- Count of flagged cells, computed from the cell states. -/
def flagCard (m : SModel) : Nat :=
  ((allCoords m.w m.h).filter (fun p => m.flaggedAt p = true)).card

/-- The stored adjacency counts agree with the mined Moore neighbourhoods
(established by construction, preserved by every operation). -/
def countsCorrect (m : SModel) : Prop :=
  ∀ x y, inB m x y →
    m.adjCount (x, y) = ((mooreNeighbors m.w m.h x y).filter (fun p => m.mine p = true)).length

/-- Everything except the `revealed` flags is shared between two models, and
revealed cells stay revealed. -/
def sameBoard (m m2 : SModel) : Prop :=
  m2.w = m.w ∧ m2.h = m.h ∧ m2.mine = m.mine ∧ m2.adjCount = m.adjCount ∧
    m2.flaggedAt = m.flaggedAt ∧ m2.flaggedCount = m.flaggedCount ∧
    (∀ p, m.revealedAt p = true → m2.revealedAt p = true)

/-- The controller's bookkeeping invariant: `num_correctly_flagged` counts the
cells that are flagged and mined, and the model's `flagged_count` counts the
flagged cells. -/
def InvC (c : SController) : Prop :=
  c.numCorrectlyFlagged = correctCard c.model ∧ c.model.flaggedCount = flagCard c.model

/-- Controller states reachable from a fresh game through the controller's
operations (the only way the driver can mutate state). -/
inductive ReachableC : SController → Prop where
  | base : ∀ (w h : Nat) (mines : Finset (Nat × Nat)),
      ReachableC (newController (constructS w h mines))
  | toggle : ∀ (c : SController) (x y : Nat) (b : Bool) (c2 : SController),
      ReachableC c → toggleFlagAtC c x y = some (b, c2) → ReachableC c2
  | reveal : ∀ (c : SController) (x y : Nat) (r : Except ErrorKind Bool) (c2 : SController),
      ReachableC c → revealZoneAtC c x y = some (r, c2) → ReachableC c2

/-- Flag, mine and adjacency-count state of a legacy-model cell (everything
but the `revealed` flag). -/
def zoneFMC (f : FieldM) (a b : Nat) : Option (Bool × Bool × Nat) :=
  (getZoneAt f a b).map (fun z => (z.flagged, z.hasMine, z.adjMineCount))

/-- Grid-shape predicate: `w` columns, each of length `h` (the shape
`generate_grid` produces and every zone mutation preserves). -/
def FShape (w h : Nat) (f : FieldM) : Prop :=
  f.grid.length = w ∧ ∀ x, x < w → ∃ col, f.grid.get? x = some col ∧ col.length = h

/-- The `Field` value built by `Field::new` right before `set_counts` runs. -/
def mkRawField (w h numMines : Nat) (pl : List (Nat × Nat)) : FieldM :=
  { numMines := numMines, numFlagged := 0, numCorrectlyFlagged := 0,
    exploded := false, grid := generateGrid w h pl }

/-- A legacy field used by witnesses: 3×3 with its single mine at (1, 1)
(the only placement, drawn immediately). -/
def F5demo : FieldM :=
  (fieldNew 3 3 1 (fun _ => (1, 1)) 2).getD
    { numMines := 0, numFlagged := 0, numCorrectlyFlagged := 0, exploded := false, grid := [] }

/-! ## Part 4: lemmas and the claim theorems -/

theorem revealZoneFuel_zero (f : FieldM) (x y : Nat) : revealZoneFuel 0 f x y = none := rfl

theorem revealListFuel_zero (f : FieldM) (l : List (Nat × Nat)) :
    revealListFuel 0 f l = none := rfl

theorem revealZoneFuel_succ (fuel : Nat) (f : FieldM) (x y : Nat) :
    revealZoneFuel (fuel + 1) f x y =
      match getZoneAt f x y with
      | none => some (Except.error ())
      | some z =>
        if z.revealed then some (Except.ok f)
        else
          match setZoneAt f x y { z with revealed := true } with
          | none => none
          | some f1 =>
            if z.hasMine then some (Except.ok (explodeF f1))
            else if z.adjMineCount = 0 then
              revealListFuel fuel f1 (adjacentPositionsF f1 x y false)
            else some (Except.ok f1) := rfl

theorem revealListFuel_succ_nil (fuel : Nat) (f : FieldM) :
    revealListFuel (fuel + 1) f [] = some (Except.ok f) := rfl

theorem revealListFuel_succ_cons (fuel : Nat) (f : FieldM) (p : Nat × Nat)
    (rest : List (Nat × Nat)) :
    revealListFuel (fuel + 1) f (p :: rest) =
      match getZoneAt f p.1 p.2 with
      | none => none
      | some az =>
        if az.hasMine = false ∧ az.adjMineCount = 0 then
          match revealZoneFuel fuel f p.1 p.2 with
          | some (Except.ok f2) => revealListFuel fuel f2 rest
          | _ => none
        else revealListFuel fuel f rest := rfl

theorem card_filter_flip_up {α : Type} [DecidableEq α] (s : Finset α) (p q : α → Prop)
    [DecidablePred p] [DecidablePred q] (a : α) (ha : a ∈ s) (hq : q a) (hp : ¬ p a)
    (hother : ∀ c, c ≠ a → (q c ↔ p c)) :
    (s.filter q).card = (s.filter p).card + 1 := by
  have hset : s.filter q = insert a (s.filter p) := by
    ext c
    by_cases hc : c = a
    · subst hc
      simp [Finset.mem_filter, ha, hq]
    · simp [Finset.mem_filter, hc, hother c hc]
  rw [hset, Finset.card_insert_of_not_mem]
  simp [Finset.mem_filter, hp]

theorem card_filter_flip_keep {α : Type} [DecidableEq α] (s : Finset α) (p q : α → Prop)
    [DecidablePred p] [DecidablePred q] (a : α) (hqa : q a ↔ p a)
    (hother : ∀ c, c ≠ a → (q c ↔ p c)) :
    (s.filter q).card = (s.filter p).card := by
  have hset : s.filter q = s.filter p := by
    ext c
    by_cases hc : c = a
    · subst hc
      simp [Finset.mem_filter, hqa]
    · simp [Finset.mem_filter, hother c hc]
  rw [hset]

theorem mem_allCoords {w h : Nat} {p : Nat × Nat} :
    p ∈ allCoords w h ↔ p.1 < w ∧ p.2 < h := by
  cases p
  simp [allCoords, Finset.mem_product]

theorem card_allCoords (w h : Nat) : (allCoords w h).card = w * h := by
  simp [allCoords]

/-- Characterization of a successful `reveal_at`. -/
theorem revealAtS_ok {m : SModel} {x y : Nat} {b : Bool} {m2 : SModel}
    (h : revealAtS m x y = (Except.ok b, m2)) :
    inB m x y ∧ m.revealedAt (x, y) = false ∧ b = m.mine (x, y) ∧
      m2 = { m with revealedAt := Function.update m.revealedAt (x, y) true } := by
  unfold revealAtS at h
  by_cases hin : inB m x y
  · rw [if_pos hin] at h
    by_cases hrev : m.revealedAt (x, y) = true
    · rw [if_pos hrev] at h
      exact absurd h (by simp)
    · rw [if_neg hrev] at h
      injection h with h1 h2
      injection h1 with h1
      exact ⟨hin, by simpa using hrev, h1.symm, h2.symm⟩
  · rw [if_neg hin] at h
    exact absurd h (by simp)

/-- A `reveal_at` that signals an error leaves the model unchanged, and the
error is NoOp exactly on an in-bounds already-revealed cell. -/
theorem revealAtS_error {m : SModel} {x y : Nat} {e : ErrorKind} {m2 : SModel}
    (h : revealAtS m x y = (Except.error e, m2)) :
    m2 = m ∧ (e = ErrorKind.NoOp → inB m x y ∧ m.revealedAt (x, y) = true) ∧
      (e = ErrorKind.OutOfBounds → ¬ inB m x y) := by
  unfold revealAtS at h
  by_cases hin : inB m x y
  · rw [if_pos hin] at h
    by_cases hrev : m.revealedAt (x, y) = true
    · rw [if_pos hrev] at h
      injection h with h1 h2
      injection h1 with h1
      subst h2
      exact ⟨rfl, fun _ => ⟨hin, hrev⟩, fun he => absurd (h1 ▸ he) (by decide)⟩
    · rw [if_neg hrev] at h
      exact absurd h (by simp)
  · rw [if_neg hin] at h
    injection h with h1 h2
    injection h1 with h1
    subst h2
    exact ⟨rfl, fun he => absurd (h1 ▸ he) (by decide), fun _ => hin⟩

/-- Revealing an in-bounds unrevealed cell decreases the number of
unrevealed cells by exactly one. -/
theorem unrevealedCount_update {m : SModel} {x y : Nat} (hin : inB m x y)
    (hrev : m.revealedAt (x, y) = false) :
    unrevealedCount m =
      unrevealedCount { m with revealedAt := Function.update m.revealedAt (x, y) true } + 1 := by
  unfold unrevealedCount
  exact card_filter_flip_up (allCoords m.w m.h) _ _ (x, y)
    (mem_allCoords.mpr ⟨hin.1, hin.2⟩) hrev
    (by simp [Function.update_same]) (fun c hc => by simp [Function.update_noteq hc])

theorem sameBoard_refl (m : SModel) : sameBoard m m :=
  ⟨rfl, rfl, rfl, rfl, rfl, rfl, fun _ hp => hp⟩

theorem sameBoard_trans {m1 m2 m3 : SModel} (h1 : sameBoard m1 m2) (h2 : sameBoard m2 m3) :
    sameBoard m1 m3 :=
  ⟨h2.1.trans h1.1, h2.2.1.trans h1.2.1, h2.2.2.1.trans h1.2.2.1,
    h2.2.2.2.1.trans h1.2.2.2.1, h2.2.2.2.2.1.trans h1.2.2.2.2.1,
    h2.2.2.2.2.2.1.trans h1.2.2.2.2.2.1,
    fun p hp => h2.2.2.2.2.2.2 p (h1.2.2.2.2.2.2 p hp)⟩

theorem sameBoard_reveal (m : SModel) (x y : Nat) :
    sameBoard m { m with revealedAt := Function.update m.revealedAt (x, y) true } := by
  refine ⟨rfl, rfl, rfl, rfl, rfl, rfl, fun p hp => ?_⟩
  by_cases hpq : p = (x, y)
  · subst hpq
    simp [Function.update_same]
  · simpa [Function.update_noteq hpq] using hp

/-- Every position produced by `adjacent_positions` is in bounds. -/
theorem adjacentPositionsS_inB {m : SModel} {x y : Nat} {diag : Bool} {p : Nat × Nat}
    (hp : p ∈ adjacentPositionsS m x y diag) : inB m p.1 p.2 := by
  unfold adjacentPositionsS at hp
  rcases List.mem_filterMap.mp hp with ⟨d, _, hsome⟩
  dsimp only at hsome
  split at hsome
  · rename_i hcond
    cases hsome
    exact ⟨by omega, by omega⟩
  · cases hsome

/-- The orthogonal `adjacent_positions` list has at most 4 entries. -/
theorem adjacentPositionsS_len (m : SModel) (x y : Nat) :
    (adjacentPositionsS m x y false).length ≤ 4 := by
  have := List.length_filterMap_le
    (fun (d : Int × Int) =>
      let nx : Int := (x : Int) + d.1
      let ny : Int := (y : Int) + d.2
      if 0 ≤ nx ∧ nx < (m.w : Int) ∧ 0 ≤ ny ∧ ny < (m.h : Int) then
        some (nx.toNat, ny.toNat)
      else none)
    ([(0, -1), (-1, 0), (1, 0), (0, 1)] : List (Int × Int))
  simpa [adjacentPositionsS] using this

/-- Orthogonal adjacent positions are Moore neighbours. -/
theorem adjacentPositionsS_sub_moore {m : SModel} {x y : Nat} {p : Nat × Nat}
    (hp : p ∈ adjacentPositionsS m x y false) : p ∈ mooreNeighbors m.w m.h x y := by
  unfold adjacentPositionsS at hp
  unfold mooreNeighbors
  rcases List.mem_filterMap.mp hp with ⟨d, hd, hsome⟩
  refine List.mem_filterMap.mpr ⟨d, ?_, hsome⟩
  fin_cases hd <;> simp

/-- The cascading-reveal loop only flips `revealed` flags, monotonically. -/
theorem cascadeFrame :
    ∀ (fuel : Nat) (m : SModel) (stack : List (Nat × Nat)) (m2 : SModel),
      cascadeFuel fuel m stack = CascadeRes.done m2 → sameBoard m m2 := by
  intro fuel
  induction fuel with
  | zero =>
    intro m stack m2 h
    cases stack with
    | nil =>
      simp only [cascadeFuel] at h
      cases h
      exact sameBoard_refl _
    | cons p rest => simp [cascadeFuel] at h
  | succ n ih =>
    intro m stack m2 h
    cases stack with
    | nil =>
      simp only [cascadeFuel] at h
      cases h
      exact sameBoard_refl _
    | cons p rest =>
      obtain ⟨x, y⟩ := p
      rcases hr : revealAtS m x y with ⟨r, m3⟩
      cases r with
      | ok b =>
        rw [cascadeFuel, hr] at h
        have hok := revealAtS_ok hr
        exact sameBoard_trans (hok.2.2.2 ▸ sameBoard_reveal m x y) (ih m3 _ m2 h)
      | error e =>
        cases e with
        | NoOp =>
          rw [cascadeFuel, hr] at h
          have herr := revealAtS_error hr
          exact herr.1 ▸ ih m3 rest m2 h
        | OutOfBounds =>
          rw [cascadeFuel, hr] at h
          cases h

/-- A neighbour passing the cascade's push filter has adjacency count 0. -/
theorem push_filter_count {m : SModel} {p : Nat × Nat}
    (h : (minesAdjacentToS m p.1 p.2 == some 0) = true) : m.adjCount p = 0 := by
  unfold minesAdjacentToS at h
  split at h
  · cases p
    simpa using h
  · simp at h

/-- Membership in the cascade's pushed-candidates list. -/
theorem mem_push_stack {m3 : SModel} {x y : Nat} {rest : List (Nat × Nat)} {p : Nat × Nat}
    (hp : p ∈ ((adjacentPositionsS m3 x y false).filter
        (fun q => minesAdjacentToS m3 q.1 q.2 == some 0)).reverse ++ rest) :
    (p ∈ adjacentPositionsS m3 x y false ∧ (minesAdjacentToS m3 p.1 p.2 == some 0) = true)
      ∨ p ∈ rest := by
  rcases List.mem_append.mp hp with hl | hr
  · left
    have := List.mem_reverse.mp hl
    exact ⟨(List.mem_filter.mp this).1, (List.mem_filter.mp this).2⟩
  · right
    exact hr

/-- The cascading-reveal loop finishes (yields `done`) within
`5 * unrevealedCount + stack length` iterations whenever every stacked
coordinate is in bounds; in particular the OutOfBounds panic arm is
unreachable. -/
theorem cascadeDone :
    ∀ (fuel : Nat) (m : SModel) (stack : List (Nat × Nat)),
      (∀ p ∈ stack, inB m p.1 p.2) →
      5 * unrevealedCount m + stack.length ≤ fuel →
      ∃ m2, cascadeFuel fuel m stack = CascadeRes.done m2 := by
  intro fuel
  induction fuel with
  | zero =>
    intro m stack hin hfuel
    cases stack with
    | nil => exact ⟨m, rfl⟩
    | cons p rest => simp at hfuel
  | succ n ih =>
    intro m stack hin hfuel
    cases stack with
    | nil => exact ⟨m, rfl⟩
    | cons p rest =>
      obtain ⟨x, y⟩ := p
      have hinxy : inB m x y := hin (x, y) (List.mem_cons_self _ _)
      rcases hr : revealAtS m x y with ⟨r, m3⟩
      cases r with
      | ok b =>
        have hok := revealAtS_ok hr
        have hm3 : m3 = { m with revealedAt := Function.update m.revealedAt (x, y) true } :=
          hok.2.2.2
        have hcount : unrevealedCount m = unrevealedCount m3 + 1 := by
          rw [hm3]
          exact unrevealedCount_update hinxy hok.2.1
        have hlen : ((adjacentPositionsS m3 x y false).filter
            (fun q => minesAdjacentToS m3 q.1 q.2 == some 0)).length ≤ 4 :=
          le_trans (List.length_filter_le _ _) (adjacentPositionsS_len m3 x y)
        have hin3 : ∀ q ∈ ((adjacentPositionsS m3 x y false).filter
            (fun q => minesAdjacentToS m3 q.1 q.2 == some 0)).reverse ++ rest,
            inB m3 q.1 q.2 := by
          intro q hq
          rcases mem_push_stack hq with ⟨hmem, _⟩ | hrest
          · exact adjacentPositionsS_inB hmem
          · have := hin q (List.mem_cons_of_mem _ hrest)
            rw [hm3]
            exact this
        have hfuel3 : 5 * unrevealedCount m3 +
            (((adjacentPositionsS m3 x y false).filter
              (fun q => minesAdjacentToS m3 q.1 q.2 == some 0)).reverse ++ rest).length ≤ n := by
          rw [List.length_append, List.length_reverse]
          simp only [List.length_cons] at hfuel
          omega
        obtain ⟨m2, hm2⟩ := ih m3 _ hin3 hfuel3
        exact ⟨m2, by rw [cascadeFuel, hr]; exact hm2⟩
      | error e =>
        cases e with
        | NoOp =>
          have herr := revealAtS_error hr
          have hfuel3 : 5 * unrevealedCount m3 + rest.length ≤ n := by
            rw [herr.1]
            simp only [List.length_cons] at hfuel
            omega
          obtain ⟨m2, hm2⟩ := ih m3 rest
            (by rw [herr.1]; exact fun q hq => hin q (List.mem_cons_of_mem _ hq)) hfuel3
          exact ⟨m2, by rw [cascadeFuel, hr]; exact hm2⟩
        | OutOfBounds =>
          exact absurd hinxy ((revealAtS_error hr).2.2 rfl)

/-- Safety invariant of the worklist: if every stacked coordinate is either
non-mined or has adjacency count 0, the loop never reveals a mined cell with
nonzero adjacency count.  (Pushed candidates pass the count-0 filter; the
initial seeds are handled at the call site.) -/
theorem cascadeSafe :
    ∀ (fuel : Nat) (m : SModel) (stack : List (Nat × Nat)) (m2 : SModel),
      (∀ p ∈ stack, m.mine p = false ∨ m.adjCount p = 0) →
      cascadeFuel fuel m stack = CascadeRes.done m2 →
      ∀ q, m.mine q = true → m.adjCount q ≠ 0 → m2.revealedAt q = m.revealedAt q := by
  intro fuel
  induction fuel with
  | zero =>
    intro m stack m2 hstack h q hq1 hq2
    cases stack with
    | nil =>
      simp only [cascadeFuel] at h
      cases h
      rfl
    | cons p rest => simp [cascadeFuel] at h
  | succ n ih =>
    intro m stack m2 hstack h q hq1 hq2
    cases stack with
    | nil =>
      simp only [cascadeFuel] at h
      cases h
      rfl
    | cons p rest =>
      obtain ⟨x, y⟩ := p
      rcases hr : revealAtS m x y with ⟨r, m3⟩
      cases r with
      | ok b =>
        rw [cascadeFuel, hr] at h
        have hok := revealAtS_ok hr
        have hm3 : m3 = { m with revealedAt := Function.update m.revealedAt (x, y) true } :=
          hok.2.2.2
        have hne : q ≠ (x, y) := by
          intro hqe
          rcases hstack (x, y) (List.mem_cons_self _ _) with hc | hc
          · rw [hqe] at hq1
            rw [hq1] at hc
            cases hc
          · exact hq2 (hqe ▸ hc)
        have hstack3 : ∀ p2 ∈ ((adjacentPositionsS m3 x y false).filter
            (fun q2 => minesAdjacentToS m3 q2.1 q2.2 == some 0)).reverse ++ rest,
            m3.mine p2 = false ∨ m3.adjCount p2 = 0 := by
          intro p2 hp2
          rcases mem_push_stack hp2 with ⟨_, hcnt⟩ | hrest
          · exact Or.inr (push_filter_count hcnt)
          · have := hstack p2 (List.mem_cons_of_mem _ hrest)
            rw [hm3]
            exact this
        have hq13 : m3.mine q = true := by rw [hm3]; exact hq1
        have hq23 : m3.adjCount q ≠ 0 := by rw [hm3]; exact hq2
        have hrev3 : m3.revealedAt q = m.revealedAt q := by
          rw [hm3]
          exact Function.update_noteq hne _ _
        rw [ih m3 _ m2 hstack3 h q hq13 hq23, hrev3]
      | error e =>
        cases e with
        | NoOp =>
          rw [cascadeFuel, hr] at h
          have herr := (revealAtS_error hr).1
          subst herr
          exact ih m3 rest m2 (fun p2 hp2 => hstack p2 (List.mem_cons_of_mem _ hp2)) h q hq1 hq2
        | OutOfBounds =>
          rw [cascadeFuel, hr] at h
          cases h

theorem revealedCount_le (m : SModel) : revealedCount m ≤ m.w * m.h := by
  calc revealedCount m ≤ (allCoords m.w m.h).card := Finset.card_filter_le _ _
  _ = m.w * m.h := card_allCoords m.w m.h

theorem revealedCount_mono {m m2 : SModel} (h : sameBoard m m2) :
    revealedCount m ≤ revealedCount m2 := by
  unfold revealedCount
  rw [h.1, h.2.1]
  refine Finset.card_le_card ?_
  intro p hp
  rcases Finset.mem_filter.mp hp with ⟨hmem, hrev⟩
  exact Finset.mem_filter.mpr ⟨hmem, h.2.2.2.2.2.2 p hrev⟩

/-- The controller's cascading reveal always returns (no panic): its stack
only ever holds in-bounds coordinates, and the fuel it passes is the loop
bound of `cascadeDone`.  Only `revealed` flags change, monotonically. -/
theorem cascadingRevealFrom_some (c : SController) (sx sy : Nat) :
    ∃ c2, cascadingRevealFrom c sx sy = some c2 ∧ sameBoard c.model c2.model ∧
      c2.numCorrectlyFlagged = c.numCorrectlyFlagged ∧ c2.explodedMine = c.explodedMine := by
  obtain ⟨m2, hm2⟩ := cascadeDone
    (5 * unrevealedCount c.model + (adjacentPositionsS c.model sx sy false).length)
    c.model (adjacentPositionsS c.model sx sy false)
    (fun p hp => adjacentPositionsS_inB hp) le_rfl
  have heq : cascadingRevealFrom c sx sy = some { c with model := m2 } := by
    unfold cascadingRevealFrom
    dsimp only
    rw [hm2]
  exact ⟨_, heq, cascadeFrame _ _ _ _ hm2, rfl, rfl⟩

/-- A successful `reveal_at` on an in-bounds unrevealed cell, written as an
equation usable for rewriting. -/
theorem revealAtS_eq_ok {m : SModel} {x y : Nat} (hin : inB m x y)
    (hrev : m.revealedAt (x, y) = false) :
    revealAtS m x y =
      (Except.ok (m.mine (x, y)),
        { m with revealedAt := Function.update m.revealedAt (x, y) true }) := by
  unfold revealAtS
  rw [if_pos hin, hrev]
  simp

/-- Controller-level first reveal: on an in-bounds, unrevealed cell
`reveal_zone_at` returns `Ok(has_mine)`, marks the cell revealed, and
changes no flag, mine or count state. -/
theorem revealZoneAtC_first (c : SController) (x y : Nat) (hin : inB c.model x y)
    (hrev : c.model.revealedAt (x, y) = false) :
    ∃ c2, revealZoneAtC c x y = some (Except.ok (c.model.mine (x, y)), c2) ∧
      c2.model.revealedAt (x, y) = true ∧ sameBoard c.model c2.model := by
  have hr := revealAtS_eq_ok hin hrev
  unfold revealZoneAtC
  rw [hr]
  by_cases hm : c.model.mine (x, y) = true
  · rw [hm]
    simp only [if_pos rfl]
    exact ⟨_, rfl, by simp [Function.update_same], hm ▸ sameBoard_reveal c.model x y⟩
  · have hmf : c.model.mine (x, y) = false := by
      cases hmv : c.model.mine (x, y)
      · rfl
      · exact absurd hmv hm
    rw [hmf]
    simp only [Bool.false_eq_true, if_neg, ite_false]
    have hmadj : minesAdjacentToS
        { c.model with revealedAt := Function.update c.model.revealedAt (x, y) true } x y =
        some (c.model.adjCount (x, y)) := by
      unfold minesAdjacentToS
      rw [if_pos]
      exact hin
    rw [hmadj]
    dsimp only
    by_cases hn : c.model.adjCount (x, y) = 0
    · rw [if_pos hn]
      obtain ⟨c2, hc2, hsb, _, _⟩ := cascadingRevealFrom_some
        { c with model :=
          { c.model with revealedAt := Function.update c.model.revealedAt (x, y) true } } x y
      rw [hc2]
      refine ⟨c2, rfl, ?_, sameBoard_trans (sameBoard_reveal c.model x y) hsb⟩
      · exact hsb.2.2.2.2.2.2 (x, y) (by simp [Function.update_same])
    · rw [if_neg hn]
      exact ⟨_, rfl, by simp [Function.update_same], sameBoard_reveal c.model x y⟩

/-- Controller-level repeat reveal: on an in-bounds, already revealed cell
`reveal_zone_at` signals NoOp and changes nothing. -/
theorem revealZoneAtC_noop (c : SController) (x y : Nat) (hin : inB c.model x y)
    (hrev : c.model.revealedAt (x, y) = true) :
    revealZoneAtC c x y = some (Except.error ErrorKind.NoOp, c) := by
  have hr : revealAtS c.model x y = (Except.error ErrorKind.NoOp, c.model) := by
    unfold revealAtS
    rw [if_pos hin, hrev]
    simp
  unfold revealZoneAtC
  rw [hr]

/-- Controller-level out-of-bounds reveal: `reveal_zone_at` signals
OutOfBounds and changes nothing. -/
theorem revealZoneAtC_oob (c : SController) (x y : Nat) (hin : ¬ inB c.model x y) :
    revealZoneAtC c x y = some (Except.error ErrorKind.OutOfBounds, c) := by
  have hr : revealAtS c.model x y = (Except.error ErrorKind.OutOfBounds, c.model) := by
    unfold revealAtS
    rw [if_neg hin]
  unfold revealZoneAtC
  rw [hr]

theorem isFlaggedAtS_some {m : SModel} {x y : Nat} {b : Bool}
    (h : isFlaggedAtS m x y = some b) : inB m x y ∧ m.flaggedAt (x, y) = b := by
  unfold isFlaggedAtS at h
  by_cases hin : inB m x y
  · rw [if_pos hin] at h
    injection h with h
    exact ⟨hin, h⟩
  · rw [if_neg hin] at h
    cases h

theorem sameBoard_cards {m m2 : SModel} (h : sameBoard m m2) :
    correctCard m2 = correctCard m ∧ flagCard m2 = flagCard m := by
  constructor
  · unfold correctCard
    rw [h.1, h.2.1, h.2.2.2.2.1, h.2.2.1]
  · unfold flagCard
    rw [h.1, h.2.1, h.2.2.2.2.1]

theorem inv_base (w h : Nat) (mines : Finset (Nat × Nat)) :
    InvC (newController (constructS w h mines)) := by
  refine ⟨?_, ?_⟩
  · simp [newController, correctCard, constructS]
  · simp [newController, flagCard, constructS]


theorem toggleFlagAtC_shape {c : SController} {x y : Nat} {b : Bool} {c2 : SController}
    (htog : toggleFlagAtC c x y = some (b, c2)) :
    inB c.model x y ∧ b = !c.model.flaggedAt (x, y) ∧
      c2 = { model :=
              { c.model with
                flaggedAt := Function.update c.model.flaggedAt (x, y) b,
                flaggedCount :=
                  if b = true then c.model.flaggedCount + 1 else c.model.flaggedCount - 1 },
             numCorrectlyFlagged :=
              (if c.model.mine (x, y) = true then
                (if b = true then c.numCorrectlyFlagged + 1 else c.numCorrectlyFlagged - 1)
              else c.numCorrectlyFlagged),
             explodedMine := c.explodedMine } := by
  unfold toggleFlagAtC at htog
  cases hflag : isFlaggedAtS c.model x y with
  | none => rw [hflag] at htog; cases htog
  | some bcur =>
    rw [hflag] at htog
    dsimp only at htog
    obtain ⟨hin, hcur⟩ := isFlaggedAtS_some hflag
    cases bcur with
    | false =>
      simp only [Bool.not_false] at htog
      have hchg : changeFlagAtS c.model x y true =
          Except.ok
            { c.model with
              flaggedAt := Function.update c.model.flaggedAt (x, y) true,
              flaggedCount := c.model.flaggedCount + 1 } := by
        unfold changeFlagAtS
        rw [if_pos hin, if_neg (by rw [hcur]; decide)]
        simp only [if_true]
      rw [hchg] at htog
      dsimp only at htog
      have hmine : hasMineAtS
          { c.model with
            flaggedAt := Function.update c.model.flaggedAt (x, y) true,
            flaggedCount := c.model.flaggedCount + 1 } x y =
          some (c.model.mine (x, y)) := by
        unfold hasMineAtS
        rw [if_pos]
        exact hin
      rw [hmine] at htog
      dsimp only at htog
      cases hmv : c.model.mine (x, y) with
      | false =>
        rw [hmv] at htog
        simp only [Bool.false_eq_true, if_false, if_true] at htog
        injection htog with htog
        injection htog with hb hc2
        subst hb
        rw [hcur]
        simp only [Bool.not_false, Bool.false_eq_true, if_false, if_true]
        exact ⟨hin, trivial, hc2.symm⟩
      | true =>
        rw [hmv] at htog
        simp only [if_true] at htog
        injection htog with htog
        injection htog with hb hc2
        subst hb
        rw [hcur]
        simp only [Bool.not_false, if_true]
        exact ⟨hin, trivial, hc2.symm⟩
    | true =>
      simp only [Bool.not_true] at htog
      have hchg : changeFlagAtS c.model x y false =
          Except.ok
            { c.model with
              flaggedAt := Function.update c.model.flaggedAt (x, y) false,
              flaggedCount := c.model.flaggedCount - 1 } := by
        unfold changeFlagAtS
        rw [if_pos hin, if_neg (by rw [hcur]; decide)]
        simp only [Bool.false_eq_true, if_false]
      rw [hchg] at htog
      dsimp only at htog
      have hmine : hasMineAtS
          { c.model with
            flaggedAt := Function.update c.model.flaggedAt (x, y) false,
            flaggedCount := c.model.flaggedCount - 1 } x y =
          some (c.model.mine (x, y)) := by
        unfold hasMineAtS
        rw [if_pos]
        exact hin
      rw [hmine] at htog
      dsimp only at htog
      cases hmv : c.model.mine (x, y) with
      | false =>
        rw [hmv] at htog
        simp only [Bool.false_eq_true, if_false] at htog
        injection htog with htog
        injection htog with hb hc2
        subst hb
        rw [hcur]
        simp only [Bool.not_true, Bool.false_eq_true, if_false]
        exact ⟨hin, trivial, hc2.symm⟩
      | true =>
        rw [hmv] at htog
        simp only [Bool.false_eq_true, if_false, if_true] at htog
        injection htog with htog
        injection htog with hb hc2
        subst hb
        rw [hcur]
        simp only [Bool.not_true, Bool.false_eq_true, if_false, if_true]
        exact ⟨hin, trivial, hc2.symm⟩

theorem inv_toggle {c : SController} {x y : Nat} {b : Bool} {c2 : SController}
    (hInv : InvC c) (htog : toggleFlagAtC c x y = some (b, c2)) : InvC c2 := by
  obtain ⟨hin, hb, hc2⟩ := toggleFlagAtC_shape htog
  subst hc2
  have hmemA : (x, y) ∈ allCoords c.model.w c.model.h := mem_allCoords.mpr ⟨hin.1, hin.2⟩
  cases hbv : c.model.flaggedAt (x, y) with
  | false =>
    rw [hbv] at hb
    simp only [Bool.not_false] at hb
    subst hb
    cases hmv : c.model.mine (x, y) with
    | false =>
      have h1 : ((allCoords c.model.w c.model.h).filter
          (fun p => Function.update c.model.flaggedAt (x, y) true p = true ∧
            c.model.mine p = true)).card =
          ((allCoords c.model.w c.model.h).filter
          (fun p => c.model.flaggedAt p = true ∧ c.model.mine p = true)).card :=
        card_filter_flip_keep _ _ _ (x, y)
          (by simp [Function.update_same, hmv, hbv])
          (fun p hp => by simp [Function.update_noteq hp])
      have h2 : ((allCoords c.model.w c.model.h).filter
          (fun p => Function.update c.model.flaggedAt (x, y) true p = true)).card =
          ((allCoords c.model.w c.model.h).filter
          (fun p => c.model.flaggedAt p = true)).card + 1 :=
        card_filter_flip_up _ _ _ (x, y) hmemA (by simp [Function.update_same])
          (by rw [hbv]; simp) (fun p hp => by simp [Function.update_noteq hp])
      refine ⟨?_, ?_⟩
      · simp only [hmv, Bool.false_eq_true, if_false, if_true]
        unfold InvC correctCard at hInv
        unfold correctCard
        dsimp only
        omega
      · simp only [if_true]
        unfold InvC flagCard at hInv
        unfold flagCard
        dsimp only
        omega
    | true =>
      have h1 : ((allCoords c.model.w c.model.h).filter
          (fun p => Function.update c.model.flaggedAt (x, y) true p = true ∧
            c.model.mine p = true)).card =
          ((allCoords c.model.w c.model.h).filter
          (fun p => c.model.flaggedAt p = true ∧ c.model.mine p = true)).card + 1 :=
        card_filter_flip_up _ _ _ (x, y) hmemA
          (by simp [Function.update_same, hmv]) (by rw [hbv]; simp)
          (fun p hp => by simp [Function.update_noteq hp])
      have h2 : ((allCoords c.model.w c.model.h).filter
          (fun p => Function.update c.model.flaggedAt (x, y) true p = true)).card =
          ((allCoords c.model.w c.model.h).filter
          (fun p => c.model.flaggedAt p = true)).card + 1 :=
        card_filter_flip_up _ _ _ (x, y) hmemA (by simp [Function.update_same])
          (by rw [hbv]; simp) (fun p hp => by simp [Function.update_noteq hp])
      refine ⟨?_, ?_⟩
      · simp only [hmv, if_true]
        unfold InvC correctCard at hInv
        unfold correctCard
        dsimp only
        omega
      · simp only [if_true]
        unfold InvC flagCard at hInv
        unfold flagCard
        dsimp only
        omega
  | true =>
    rw [hbv] at hb
    simp only [Bool.not_true] at hb
    subst hb
    cases hmv : c.model.mine (x, y) with
    | false =>
      have h1 : ((allCoords c.model.w c.model.h).filter
          (fun p => Function.update c.model.flaggedAt (x, y) false p = true ∧
            c.model.mine p = true)).card =
          ((allCoords c.model.w c.model.h).filter
          (fun p => c.model.flaggedAt p = true ∧ c.model.mine p = true)).card :=
        card_filter_flip_keep _ _ _ (x, y)
          (by simp [Function.update_same, hmv])
          (fun p hp => by simp [Function.update_noteq hp])
      have h2 : ((allCoords c.model.w c.model.h).filter
          (fun p => c.model.flaggedAt p = true)).card =
          ((allCoords c.model.w c.model.h).filter
          (fun p => Function.update c.model.flaggedAt (x, y) false p = true)).card + 1 :=
        card_filter_flip_up _ _ _ (x, y) hmemA (by rw [hbv])
          (by simp [Function.update_same]) (fun p hp => by simp [Function.update_noteq hp])
      refine ⟨?_, ?_⟩
      · simp only [hmv, Bool.false_eq_true, if_false]
        unfold InvC correctCard at hInv
        unfold correctCard
        dsimp only
        omega
      · simp only [Bool.false_eq_true, if_false]
        unfold InvC flagCard at hInv
        unfold flagCard
        dsimp only
        omega
    | true =>
      have h1 : ((allCoords c.model.w c.model.h).filter
          (fun p => c.model.flaggedAt p = true ∧ c.model.mine p = true)).card =
          ((allCoords c.model.w c.model.h).filter
          (fun p => Function.update c.model.flaggedAt (x, y) false p = true ∧
            c.model.mine p = true)).card + 1 :=
        card_filter_flip_up _ _ _ (x, y) hmemA ⟨hbv, hmv⟩
          (by simp [Function.update_same])
          (fun p hp => by simp [Function.update_noteq hp])
      have h2 : ((allCoords c.model.w c.model.h).filter
          (fun p => c.model.flaggedAt p = true)).card =
          ((allCoords c.model.w c.model.h).filter
          (fun p => Function.update c.model.flaggedAt (x, y) false p = true)).card + 1 :=
        card_filter_flip_up _ _ _ (x, y) hmemA (by rw [hbv])
          (by simp [Function.update_same]) (fun p hp => by simp [Function.update_noteq hp])
      refine ⟨?_, ?_⟩
      · simp only [hmv, Bool.false_eq_true, if_false, if_true]
        unfold InvC correctCard at hInv
        unfold correctCard
        dsimp only
        omega
      · simp only [Bool.false_eq_true, if_false]
        unfold InvC flagCard at hInv
        unfold flagCard
        dsimp only
        omega

/-- A completed `reveal_zone_at` call only flips `revealed` flags (and maybe
`exploded_mine`); flags, counts and `num_correctly_flagged` are untouched. -/
theorem revealZoneAtC_shape {c : SController} {x y : Nat} {r : Except ErrorKind Bool}
    {c2 : SController} (h : revealZoneAtC c x y = some (r, c2)) :
    sameBoard c.model c2.model ∧ c2.numCorrectlyFlagged = c.numCorrectlyFlagged := by
  unfold revealZoneAtC at h
  rcases hr : revealAtS c.model x y with ⟨r0, m3⟩
  rw [hr] at h
  cases r0 with
  | error e =>
    dsimp only at h
    injection h with h
    injection h with hr2 hc2
    subst hc2
    have herr := (revealAtS_error hr).1
    subst herr
    exact ⟨sameBoard_refl _, rfl⟩
  | ok b =>
    dsimp only at h
    have hok := revealAtS_ok hr
    have hm3 := hok.2.2.2
    cases b with
    | true =>
      simp only [if_true] at h
      injection h with h
      injection h with hr2 hc2
      subst hc2
      subst hm3
      exact ⟨sameBoard_reveal _ _ _, rfl⟩
    | false =>
      simp only [Bool.false_eq_true, if_false] at h
      have hmadj : minesAdjacentToS m3 x y = some (m3.adjCount (x, y)) := by
        unfold minesAdjacentToS
        rw [if_pos]
        subst hm3
        exact hok.1
      rw [hmadj] at h
      dsimp only at h
      by_cases hn : m3.adjCount (x, y) = 0
      · rw [if_pos hn] at h
        obtain ⟨c3, hc3, hsb, hncf, hexp⟩ :=
          cascadingRevealFrom_some { c with model := m3 } x y
        rw [hc3] at h
        injection h with h
        injection h with hr2 hc2
        subst hc2
        refine ⟨?_, hncf⟩
        have : sameBoard c.model m3 := by
          subst hm3
          exact sameBoard_reveal _ _ _
        exact sameBoard_trans this hsb
      · rw [if_neg hn] at h
        injection h with h
        injection h with hr2 hc2
        subst hc2
        subst hm3
        exact ⟨sameBoard_reveal _ _ _, rfl⟩

theorem inv_reveal {c : SController} {x y : Nat} {r : Except ErrorKind Bool}
    {c2 : SController} (hInv : InvC c) (h : revealZoneAtC c x y = some (r, c2)) : InvC c2 := by
  obtain ⟨hsb, hncf⟩ := revealZoneAtC_shape h
  obtain ⟨hcc, hfc⟩ := sameBoard_cards hsb
  exact ⟨by rw [hncf, hcc, hInv.1], by rw [hsb.2.2.2.2.2.1, hfc, hInv.2]⟩

/-- Every reachable controller state satisfies the bookkeeping invariant. -/
theorem inv_reachable {c : SController} (h : ReachableC c) : InvC c := by
  induction h with
  | base w h mines => exact inv_base w h mines
  | toggle c x y b c2 _ htog ih => exact inv_toggle ih htog
  | reveal c x y r c2 _ hrev ih => exact inv_reveal ih hrev

theorem getZoneAt_parts {f : FieldM} {x y : Nat} {z : Zone}
    (hget : getZoneAt f x y = some z) :
    ∃ col, f.grid.get? x = some col ∧ col.get? y = some z := by
  unfold getZoneAt at hget
  cases hcol : f.grid.get? x with
  | none => rw [hcol] at hget; cases hget
  | some col =>
    rw [hcol] at hget
    exact ⟨col, rfl, hget⟩

theorem getD_of_get? {α : Type} {l : List α} {n : Nat} {a : α} (d : α)
    (h : l.get? n = some a) : l.getD n d = a := by
  unfold List.getD
  rw [List.get?_eq_getElem?] at h
  simp [h]

theorem getZoneAt_set_self {f : FieldM} {x y : Nat} {z : Zone} (z2 : Zone)
    (hget : getZoneAt f x y = some z) :
    getZoneAt { f with grid := f.grid.set x ((f.grid.getD x []).set y z2) } x y = some z2 := by
  obtain ⟨col, hcol, hz⟩ := getZoneAt_parts hget
  unfold getZoneAt
  dsimp only
  rw [List.get?_set_eq, hcol]
  simp only [Option.map_eq_map, Option.map_some', Option.some_bind]
  rw [getD_of_get? [] hcol, List.get?_set_eq, hz]
  simp only [Option.map_eq_map, Option.map_some']

theorem getZoneAt_set_other {f : FieldM} {x y : Nat} {z : Zone} (z2 : Zone)
    (hget : getZoneAt f x y = some z) {a b : Nat} (hab : ¬(a = x ∧ b = y)) :
    getZoneAt { f with grid := f.grid.set x ((f.grid.getD x []).set y z2) } a b =
      getZoneAt f a b := by
  obtain ⟨col, hcol, hz⟩ := getZoneAt_parts hget
  unfold getZoneAt
  dsimp only
  by_cases hax : a = x
  · subst hax
    rw [List.get?_set_eq, hcol]
    simp only [Option.map_eq_map, Option.map_some', Option.some_bind]
    have hby : b ≠ y := fun hby => hab ⟨rfl, hby⟩
    rw [getD_of_get? [] hcol, List.get?_set_ne _ _ (fun he => hby he.symm)]
  · rw [List.get?_set_ne _ _ (fun he => hax he.symm)]

theorem setZoneAt_eq {f : FieldM} {x y : Nat} {z : Zone} (z2 : Zone)
    (hget : getZoneAt f x y = some z) :
    setZoneAt f x y z2 =
      some { f with grid := f.grid.set x ((f.grid.getD x []).set y z2) } := by
  unfold setZoneAt
  rw [hget]

theorem zoneFMC_set_reveal {f : FieldM} {x y : Nat} {z : Zone}
    (hget : getZoneAt f x y = some z) (a b : Nat) :
    zoneFMC { f with grid := f.grid.set x ((f.grid.getD x []).set y { z with revealed := true }) }
      a b = zoneFMC f a b := by
  by_cases hab : a = x ∧ b = y
  · obtain ⟨ha, hb⟩ := hab
    subst ha
    subst hb
    unfold zoneFMC
    rw [getZoneAt_set_self _ hget, hget]
    rfl
  · unfold zoneFMC
    rw [getZoneAt_set_other _ hget hab]

/-- The legacy `reveal_zone` never changes any cell's flag, mine or
adjacency-count state (only `revealed` flags and the field-level `exploded`
bit), whatever its recursion does. -/
theorem revealPres : ∀ fuel : Nat,
    (∀ f x y f2, revealZoneFuel fuel f x y = some (Except.ok f2) →
      ∀ a b, zoneFMC f2 a b = zoneFMC f a b) ∧
    (∀ f l f2, revealListFuel fuel f l = some (Except.ok f2) →
      ∀ a b, zoneFMC f2 a b = zoneFMC f a b) := by
  intro fuel
  induction fuel with
  | zero =>
    constructor
    · intro f x y f2 h
      rw [revealZoneFuel_zero] at h
      cases h
    · intro f l f2 h
      rw [revealListFuel_zero] at h
      cases h
  | succ n ihn =>
    constructor
    · intro f x y f2 h a b
      rw [revealZoneFuel_succ] at h
      cases hgz : getZoneAt f x y with
      | none =>
        rw [hgz] at h
        injection h with h
        cases h
      | some z =>
        rw [hgz] at h
        dsimp only at h
        by_cases hrev : z.revealed = true
        · rw [if_pos hrev] at h
          injection h with h
          injection h with h
          rw [h]
        · rw [if_neg hrev] at h
          rw [setZoneAt_eq { z with revealed := true } hgz] at h
          dsimp only at h
          by_cases hm : z.hasMine = true
          · rw [if_pos hm] at h
            injection h with h
            injection h with h
            rw [← h]
            exact zoneFMC_set_reveal hgz a b
          · rw [if_neg hm] at h
            by_cases hc : z.adjMineCount = 0
            · rw [if_pos hc] at h
              rw [ihn.2 _ _ _ h a b]
              exact zoneFMC_set_reveal hgz a b
            · rw [if_neg hc] at h
              injection h with h
              injection h with h
              rw [← h]
              exact zoneFMC_set_reveal hgz a b
    · intro f l f2 h a b
      cases l with
      | nil =>
        rw [revealListFuel_succ_nil] at h
        injection h with h
        injection h with h
        rw [h]
      | cons p rest =>
        rw [revealListFuel_succ_cons] at h
        cases hgz : getZoneAt f p.1 p.2 with
        | none => rw [hgz] at h; cases h
        | some az =>
          rw [hgz] at h
          dsimp only at h
          by_cases hcond : az.hasMine = false ∧ az.adjMineCount = 0
          · rw [if_pos hcond] at h
            cases hrz : revealZoneFuel n f p.1 p.2 with
            | none => rw [hrz] at h; cases h
            | some r =>
              rw [hrz] at h
              cases r with
              | error e => cases h
              | ok f3 =>
                rw [ihn.2 _ _ _ h a b]
                exact ihn.1 _ _ _ _ hrz a b
          · rw [if_neg hcond] at h
            exact ihn.2 _ _ _ h a b

/-- One unfolding of the legacy `reveal_zone` on an in-bounds, unrevealed
cell that is mined or has nonzero adjacency count: no recursion happens and
only the target cell's `revealed` flag changes. -/
theorem revealZoneFuel_single {fuel : Nat} {f : FieldM} {x y : Nat} {z : Zone}
    (hget : getZoneAt f x y = some z) (hrev : z.revealed = false)
    (hstop : z.hasMine = true ∨ z.adjMineCount ≠ 0) :
    ∃ f2, revealZoneFuel (fuel + 1) f x y = some (Except.ok f2) ∧
      getZoneAt f2 x y = some { z with revealed := true } ∧
      (∀ a b, ¬(a = x ∧ b = y) → getZoneAt f2 a b = getZoneAt f a b) := by
  rw [revealZoneFuel_succ, hget]
  dsimp only
  rw [if_neg (by rw [hrev]; exact Bool.false_ne_true)]
  rw [setZoneAt_eq { z with revealed := true } hget]
  dsimp only
  by_cases hm : z.hasMine = true
  · rw [if_pos hm]
    exact ⟨_, rfl, getZoneAt_set_self _ hget, fun a b hab => getZoneAt_set_other _ hget hab⟩
  · have hc : z.adjMineCount ≠ 0 := by
      rcases hstop with hs | hs
      · exact absurd hs hm
      · exact hs
    rw [if_neg hm, if_neg hc]
    exact ⟨_, rfl, getZoneAt_set_self _ hget, fun a b hab => getZoneAt_set_other _ hget hab⟩

/-- Invariant for the 1×1 rejection-sampling loop: the accumulated set is
always a subset of the single grid coordinate, so it can never reach size 2. -/
theorem genPlacementsGo_1x1 (stream : Nat → Nat × Nat) :
    ∀ (fuel i : Nat) (acc : List (Nat × Nat)), (acc = [] ∨ acc = [(0, 0)]) →
      genPlacementsGo stream 2 1 1 fuel i acc = none := by
  intro fuel
  induction fuel with
  | zero =>
    intro i acc hacc
    rw [genPlacementsGo]
    rw [if_neg (by rcases hacc with h | h <;> subst h <;> decide)]
  | succ n ih =>
    intro i acc hacc
    rw [genPlacementsGo]
    rw [if_neg (by rcases hacc with h | h <;> subst h <;> decide)]
    rw [Nat.mod_one, Nat.mod_one]
    apply ih
    rcases hacc with h | h <;> subst h
    · exact Or.inr rfl
    · exact Or.inr rfl

theorem generateGrid_shape (w h : Nat) (pl : List (Nat × Nat)) (numMines : Nat) :
    FShape w h
      { numMines := numMines, numFlagged := 0, numCorrectlyFlagged := 0,
        exploded := false, grid := generateGrid w h pl } := by
  constructor
  · simp [generateGrid]
  · intro x hx
    refine ⟨(List.range h).map (fun y => Zone.new (pl.contains (x, y))), ?_, by simp⟩
    unfold generateGrid
    dsimp only
    rw [List.get?_map, List.get?_range hx]
    rfl

theorem getZoneAt_of_shape {w h : Nat} {f : FieldM} (hs : FShape w h f) {x y : Nat}
    (hbad : w ≤ x ∨ h ≤ y) : getZoneAt f x y = none := by
  unfold getZoneAt
  rcases hbad with hb | hb
  · have hnone : f.grid.get? x = none := by
      rw [List.get?_eq_none, hs.1]
      exact hb
    rw [hnone]
    rfl
  · cases hcol : f.grid.get? x with
    | none => rfl
    | some col =>
      have hx : x < f.grid.length := by
        by_contra hge
        rw [List.get?_eq_none.mpr (Nat.le_of_not_lt hge)] at hcol
        cases hcol
      have hxw : x < w := by
        have := hs.1
        omega
      obtain ⟨col2, hcol2, hlen⟩ := hs.2 x hxw
      rw [hcol] at hcol2
      injection hcol2 with he
      subst he
      simp only [Option.some_bind]
      rw [List.get?_eq_none]
      omega

theorem setZoneAt_shape {w h : Nat} {f f2 : FieldM} (hs : FShape w h f) {x y : Nat} {z : Zone}
    (hset : setZoneAt f x y z = some f2) : FShape w h f2 := by
  unfold setZoneAt at hset
  cases hget : getZoneAt f x y with
  | none => rw [hget] at hset; cases hset
  | some z0 =>
    rw [hget] at hset
    injection hset with hset
    subst hset
    constructor
    · simp [hs.1]
    · intro a ha
      obtain ⟨col, hcol, hlen⟩ := hs.2 a ha
      by_cases hax : a = x
      · subst hax
        refine ⟨(f.grid.getD a []).set y z, ?_, ?_⟩
        · dsimp only
          rw [List.get?_set_eq, hcol]
          rfl
        · rw [List.length_set, getD_of_get? [] hcol, hlen]
      · refine ⟨col, ?_, hlen⟩
        dsimp only
        rw [List.get?_set_ne _ _ (fun he => hax he.symm), hcol]

theorem resetZoneCount_shape {w h : Nat} {f f2 : FieldM} (hs : FShape w h f) {p : Nat × Nat}
    (hr : resetZoneCount f p = some f2) : FShape w h f2 := by
  unfold resetZoneCount at hr
  cases hget : getZoneAt f p.1 p.2 with
  | none => rw [hget] at hr; cases hr
  | some z =>
    rw [hget] at hr
    dsimp only at hr
    rw [show setAdjMineCount z 0 = some { z with adjMineCount := 0 } from rfl] at hr
    exact setZoneAt_shape hs hr

theorem resetFold_none {w h : Nat} :
    ∀ (l : List (Nat × Nat)) (f : FieldM), FShape w h f →
      (∃ p ∈ l, w ≤ p.1 ∨ h ≤ p.2) → l.foldlM resetZoneCount f = none := by
  intro l
  induction l with
  | nil =>
    intro f _ hbad
    rcases hbad with ⟨p, hp, _⟩
    cases hp
  | cons q rest ih =>
    intro f hs hbad
    rw [List.foldlM_cons]
    cases hq : resetZoneCount f q with
    | none => rfl
    | some f1 =>
      have hqgood : ¬ (w ≤ q.1 ∨ h ≤ q.2) := by
        intro hb
        have : getZoneAt f q.1 q.2 = none := getZoneAt_of_shape hs hb
        unfold resetZoneCount at hq
        rw [this] at hq
        cases hq
      rcases hbad with ⟨p, hp, hbp⟩
      rcases List.mem_cons.mp hp with he | hrest
      · subst he
        exact absurd hbp hqgood
      · exact ih f1 (resetZoneCount_shape hs hq) ⟨p, hrest, hbp⟩

theorem headD_of_get0 {α : Type} {l : List α} {a : α} (d : α) (h : l.get? 0 = some a) :
    l.headD d = a := by
  cases l with
  | nil => cases h
  | cons b rest =>
    injection h

/-- For any non-square dimensions the `set_counts` reset loop indexes the
grid out of range and aborts: `width()` and `height()` return the transposed
dimensions, so the loop runs `x` over the real height and `y` over the real
width against a grid whose real shape is `width` columns of `height` cells. -/
theorem setCounts_none_of_ne {w h : Nat} (hw : 0 < w) (hh : 0 < h) (hne : w ≠ h)
    (numMines : Nat) (pl : List (Nat × Nat)) :
    setCounts (mkRawField w h numMines pl) pl = none := by
  have hshape : FShape w h (mkRawField w h numMines pl) := generateGrid_shape w h pl numMines
  have hwidthF : widthF (mkRawField w h numMines pl) = h := by
    obtain ⟨col, hcol, hlen⟩ := hshape.2 0 hw
    unfold widthF
    rw [headD_of_get0 [] hcol, hlen]
  have hheightF : heightF (mkRawField w h numMines pl) = w := hshape.1
  have hbad : ∃ p ∈ resetPairs (mkRawField w h numMines pl), w ≤ p.1 ∨ h ≤ p.2 := by
    unfold resetPairs
    rw [hwidthF, hheightF]
    rcases Nat.lt_or_ge w h with hlt | hge
    · refine ⟨(w, 0), ?_, Or.inl le_rfl⟩
      refine List.mem_flatMap.mpr ⟨w, List.mem_range.mpr hlt, ?_⟩
      exact List.mem_map.mpr ⟨0, List.mem_range.mpr hw, rfl⟩
    · have hlt2 : h < w := by omega
      refine ⟨(0, h), ?_, Or.inr le_rfl⟩
      refine List.mem_flatMap.mpr ⟨0, List.mem_range.mpr hh, ?_⟩
      exact List.mem_map.mpr ⟨h, List.mem_range.mpr hlt2, rfl⟩
  unfold setCounts
  rw [resetFold_none _ _ hshape hbad]

theorem fieldNew_none_of_ne {w h : Nat} (hw : 0 < w) (hh : 0 < h) (hne : w ≠ h)
    (numMines fuel : Nat) (stream : Nat → Nat × Nat) :
    fieldNew w h numMines stream fuel = none := by
  unfold fieldNew
  rw [if_neg (by omega)]
  cases hpl : generatePlacements stream numMines w h fuel with
  | none => rfl
  | some pl => exact setCounts_none_of_ne hw hh hne numMines pl

theorem countsCorrect_constructS (w h : Nat) (mines : Finset (Nat × Nat)) :
    countsCorrect (constructS w h mines) := by
  intro x y hin
  simp [constructS, countsCorrect]

theorem cascadingRevealFrom_safe {c : SController} {sx sy : Nat} {c3 : SController}
    (hseed : ∀ p ∈ adjacentPositionsS c.model sx sy false,
      c.model.mine p = false ∨ c.model.adjCount p = 0)
    (h : cascadingRevealFrom c sx sy = some c3) :
    ∀ q, c.model.mine q = true → c.model.adjCount q ≠ 0 →
      c3.model.revealedAt q = c.model.revealedAt q := by
  unfold cascadingRevealFrom at h
  dsimp only at h
  cases hcf : cascadeFuel (5 * unrevealedCount c.model +
      (adjacentPositionsS c.model sx sy false).length) c.model
      (adjacentPositionsS c.model sx sy false) with
  | timeout => rw [hcf] at h; cases h
  | panic => rw [hcf] at h; cases h
  | done m2 =>
    rw [hcf] at h
    injection h with h
    intro q hq1 hq2
    rw [← h]
    exact cascadeSafe _ _ _ _ hseed hcf q hq1 hq2

/-- C1 (amended): if the controller state has correct stored adjacency
counts and the driver reveals an in-bounds, non-mined cell of adjacency
count 0, the triggered cascade never reveals a mined cell whose adjacency
count is nonzero.  (A mined cell whose own adjacency count is 0 CAN be
revealed by the cascade — see the counterexample — because the worklist
push filter in controller.rs checks the neighbour's count instead of the
revealed cell's count.) -/
theorem c1_amended_cascade_mine_safety
    (c : SController) (x y : Nat) (r : Except ErrorKind Bool) (c2 : SController)
    (hcc : countsCorrect c.model) (hin : inB c.model x y)
    (hmine : c.model.mine (x, y) = false) (hcnt : c.model.adjCount (x, y) = 0)
    (h : revealZoneAtC c x y = some (r, c2)) :
    ∀ q, c.model.mine q = true → c.model.adjCount q ≠ 0 →
      c2.model.revealedAt q = c.model.revealedAt q := by
  intro q hq1 hq2
  have hqne : q ≠ (x, y) := by
    intro he
    rw [he, hmine] at hq1
    cases hq1
  unfold revealZoneAtC at h
  rcases hr : revealAtS c.model x y with ⟨r0, m3⟩
  rw [hr] at h
  cases r0 with
  | error e =>
    dsimp only at h
    injection h with h
    injection h with h1 h2
    rw [← h2]
    dsimp only
    rw [(revealAtS_error hr).1]
  | ok b =>
    dsimp only at h
    have hok := revealAtS_ok hr
    have hbval : b = false := by rw [hok.2.2.1, hmine]
    subst hbval
    simp only [Bool.false_eq_true, if_false] at h
    have hm3 := hok.2.2.2
    subst hm3
    have hmadj : minesAdjacentToS
        { c.model with revealedAt := Function.update c.model.revealedAt (x, y) true } x y =
        some 0 := by
      unfold minesAdjacentToS
      split
      · dsimp only
        rw [hcnt]
      · rename_i hneg
        exact absurd hin hneg
    rw [hmadj] at h
    dsimp only at h
    simp only [if_pos rfl] at h
    cases hcas : cascadingRevealFrom
        { c with model :=
          { c.model with revealedAt := Function.update c.model.revealedAt (x, y) true } } x y with
    | none => rw [hcas] at h; cases h
    | some c3 =>
      rw [hcas] at h
      injection h with h
      injection h with h1 h2
      have hnomine : ∀ p ∈ mooreNeighbors c.model.w c.model.h x y, c.model.mine p = false := by
        intro p hp
        cases hmp : c.model.mine p with
        | false => rfl
        | true =>
          have hcnt2 := hcc x y hin
          rw [hcnt] at hcnt2
          have hmem : p ∈ (mooreNeighbors c.model.w c.model.h x y).filter
              (fun p2 => c.model.mine p2 = true) :=
            List.mem_filter.mpr ⟨hp, by simp [hmp]⟩
          rw [List.length_eq_zero.mp hcnt2.symm] at hmem
          cases hmem
      have hsafe := @cascadingRevealFrom_safe { c with model :=
          { c.model with revealedAt := Function.update c.model.revealedAt (x, y) true } }
        x y c3
        (fun p hp => Or.inl (hnomine p (adjacentPositionsS_sub_moore hp))) hcas q hq1 hq2
      rw [← h2]
      dsimp only at hsafe ⊢
      rw [hsafe, Function.update_noteq hqne]

/-- C1 (counterexample): on the 3×3 grid with the single mine at (2, 0) —
isolated, so its own adjacency count is 0 — the driver reveal of the
non-mined zero-count cell (0, 0) makes the cascade reveal the mined cell
(2, 0), while `exploded_mine` stays unset.  This refutes the claim that the
cascade never marks a mined cell revealed. -/
theorem c1_counterexample :
    ((revealZoneAtC (newController (constructS 3 3 {(2, 0)})) 0 0).map
      (fun rc => (rc.2.model.revealedAt (2, 0), rc.2.explodedMine))) = some (true, none) ∧
    (constructS 3 3 {(2, 0)}).mine (2, 0) = true ∧
    (constructS 3 3 {(2, 0)}).mine (0, 0) = false ∧
    (constructS 3 3 {(2, 0)}).adjCount (0, 0) = 0 := by
  exact ⟨by decide, by decide, by decide, by decide⟩

/-- C2 (code bug): `lost()` is `exploded_mine.is_none()` in controller.rs, the
inverse of the specified behaviour — a fresh game with no mine revealed has
`lost() = true`, and after revealing a mine (at (0, 0) of a 1×1 grid, which
sets `exploded_mine`) `lost()` becomes `false`. -/
theorem c2_lost_inverted :
    lostC (newController (constructS 1 1 {(0, 0)})) = true ∧
    (newController (constructS 1 1 {(0, 0)})).explodedMine = none ∧
    ((revealZoneAtC (newController (constructS 1 1 {(0, 0)})) 0 0).map
      (fun rc => (lostC rc.2, rc.2.explodedMine))) = some (false, some (0, 0)) := by
  exact ⟨rfl, rfl, by decide⟩

/-- C3 (confirmed): in every controller state reachable through the
controller's operations, `won()` is true exactly when the number of flags
sitting on mined cells equals the total number of flagged cells (no
requirement that all mines are flagged); and a freshly constructed game with
0 mines and no flags has `won() = true`. -/
theorem c3_won_iff_correct_flags :
    (∀ c : SController, ReachableC c →
      (wonC c = true ↔ correctCard c.model = flagCard c.model)) ∧
    (∀ w h : Nat, wonC (newController (constructS w h ∅)) = true) := by
  constructor
  · intro c hc
    obtain ⟨h1, h2⟩ := inv_reachable hc
    unfold wonC
    rw [h1, h2]
    exact beq_iff_eq
  · intro w h
    rfl

theorem c3_won_iff_correct_flags_witness :
    wonC (newController (constructS 2 2 {(0, 0)})) = true ↔
      correctCard (newController (constructS 2 2 {(0, 0)})).model =
        flagCard (newController (constructS 2 2 {(0, 0)})).model :=
  c3_won_iff_correct_flags.1 (newController (constructS 2 2 {(0, 0)}))
    (ReachableC.base 2 2 {(0, 0)})

/-- C4 (code bug): constructing the 2×2 grid whose only mine lands on (0, 0)
(the rng draws (0, 0)), the stored `adjacent_mine_count` of cell (1, 1) is 0,
while recomputing from the mine set over the in-bounds Moore neighbourhood
gives 1 — `adjacent_positions(0, 0, true)` computes the wrapped range
`(0usize-1)..=1`, which is empty in release builds (debug builds panic on
the underflow), so mines in the left or top edge increment nobody. -/
theorem c4_adjacency_counts_wrong_at_origin :
    ((fieldNew 2 2 1 (fun _ => (0, 0)) 2).bind (fun f => getZoneAt f 0 0)).map Zone.hasMine =
      some true ∧
    ((fieldNew 2 2 1 (fun _ => (0, 0)) 2).bind (fun f => getZoneAt f 1 1)).map
      Zone.adjMineCount = some 0 ∧
    ((mooreNeighbors 2 2 1 1).filter (fun p => p ∈ ({(0, 0)} : Finset (Nat × Nat)))).length =
      1 := by
  exact ⟨by decide, by decide, by decide⟩

/-- C5 (counterexample): on a 2×2 grid with no mines, the Grid-level
`reveal_zone(0, 0)` reveals all four cells, not only (0, 0): the model-level
reveal cascades by itself when the target has adjacency count 0. -/
theorem c5_counterexample :
    ((fieldNew 2 2 0 (fun _ => (0, 0)) 1).bind (fun f =>
      match revealZoneFuel 16 f 0 0 with
      | some (Except.ok f2) => some (f2.grid.map (fun col => col.map Zone.revealed))
      | _ => none)) = some [[true, true], [true, true]] := by
  decide

/-- C5 (amended): `reveal_zone` never changes any cell's `flagged`,
`has_mine` or `adjacent_mine_count` state, and on an in-bounds,
not-yet-revealed cell that is mined or has nonzero adjacency count it
changes the `revealed` flag of that cell only; when the target is non-mined
with count 0 it recursively reveals further zero-count non-mined cells (the
Grid-level reveal does cascade, contrary to the original claim). -/
theorem c5_amended_reveal_frame :
    (∀ (fuel : Nat) (f : FieldM) (x y : Nat) (f2 : FieldM),
      revealZoneFuel fuel f x y = some (Except.ok f2) →
      ∀ a b, zoneFMC f2 a b = zoneFMC f a b) ∧
    (∀ (fuel : Nat) (f : FieldM) (x y : Nat) (z : Zone),
      getZoneAt f x y = some z → z.revealed = false →
      z.hasMine = true ∨ z.adjMineCount ≠ 0 →
      ∃ f2, revealZoneFuel (fuel + 1) f x y = some (Except.ok f2) ∧
        getZoneAt f2 x y = some { z with revealed := true } ∧
        ∀ a b, ¬(a = x ∧ b = y) → getZoneAt f2 a b = getZoneAt f a b) :=
  ⟨fun fuel => (revealPres fuel).1,
   fun _ _ _ _ _ hget hrev hstop => revealZoneFuel_single hget hrev hstop⟩

theorem c5_amended_reveal_frame_witness :
    ∃ f2, revealZoneFuel 1 F5demo 0 0 = some (Except.ok f2) ∧
      getZoneAt f2 0 0 =
        some { flagged := false, revealed := true, hasMine := false, adjMineCount := 1 } ∧
      ∀ a b, ¬(a = 0 ∧ b = 0) → getZoneAt f2 a b = getZoneAt F5demo a b :=
  c5_amended_reveal_frame.2 0 F5demo 0 0
    { flagged := false, revealed := false, hasMine := false, adjMineCount := 1 }
    (by decide) rfl (Or.inr (by decide))

theorem c1_amended_cascade_mine_safety_witness :
    ∃ r c2, revealZoneAtC (newController (constructS 3 3 {(2, 0), (2, 1)})) 0 0 =
        some (r, c2) ∧ c2.model.revealedAt (2, 0) = false := by
  cases hev : revealZoneAtC (newController (constructS 3 3 {(2, 0), (2, 1)})) 0 0 with
  | none =>
    have hs0 : (revealZoneAtC (newController (constructS 3 3 {(2, 0), (2, 1)})) 0 0).isSome =
        true := by decide
    rw [hev] at hs0
    cases hs0
  | some rc =>
    obtain ⟨r, c2⟩ := rc
    refine ⟨r, c2, rfl, ?_⟩
    have hres := c1_amended_cascade_mine_safety
      (newController (constructS 3 3 {(2, 0), (2, 1)})) 0 0 r c2
      (countsCorrect_constructS 3 3 {(2, 0), (2, 1)}) (by decide) (by decide) (by decide)
      (by rw [hev]) (2, 0) (by decide) (by decide)
    rw [hres]
    decide

/-- C6 (confirmed): a first `reveal_zone_at` of an in-bounds, not-yet-revealed
cell succeeds and returns whether it held a mine; a second call on the same
coordinate signals NoOp (leaving the state unchanged); an off-grid
coordinate signals OutOfBounds. -/
theorem c6_reveal_twice_noop :
    (∀ (c : SController) (x y : Nat), inB c.model x y → c.model.revealedAt (x, y) = false →
      ∃ c2, revealZoneAtC c x y = some (Except.ok (c.model.mine (x, y)), c2) ∧
        c2.model.revealedAt (x, y) = true ∧
        revealZoneAtC c2 x y = some (Except.error ErrorKind.NoOp, c2)) ∧
    (∀ (c : SController) (x y : Nat), ¬ inB c.model x y →
      revealZoneAtC c x y = some (Except.error ErrorKind.OutOfBounds, c)) := by
  constructor
  · intro c x y hin hrev
    obtain ⟨c2, h1, h2, hsb⟩ := revealZoneAtC_first c x y hin hrev
    refine ⟨c2, h1, h2, ?_⟩
    exact revealZoneAtC_noop c2 x y ⟨by rw [hsb.1]; exact hin.1, by rw [hsb.2.1]; exact hin.2⟩ h2
  · intro c x y hin
    exact revealZoneAtC_oob c x y hin

theorem c6_reveal_twice_noop_witness :
    ∃ c2, revealZoneAtC (newController (constructS 1 1 ∅)) 0 0 =
        some (Except.ok ((newController (constructS 1 1 ∅)).model.mine (0, 0)), c2) ∧
      c2.model.revealedAt (0, 0) = true ∧
      revealZoneAtC c2 0 0 = some (Except.error ErrorKind.NoOp, c2) :=
  c6_reveal_twice_noop.1 (newController (constructS 1 1 ∅)) 0 0 (by decide) (by decide)

/-- C7 (code bug): demanding 2 distinct mines on a 1×1 grid makes
`generate_placements` loop forever — the coordinate set can only ever hold
(0, 0), so for every random stream and every iteration budget the loop is
still running (no invalid-configuration error is ever signalled), and
`Field::new(1, 1, 2)` never returns. -/
theorem c7_overfull_construction_never_returns :
    ∀ (fuel : Nat) (stream : Nat → Nat × Nat),
      generatePlacements stream 2 1 1 fuel = none ∧ fieldNew 1 1 2 stream fuel = none := by
  intro fuel stream
  have hg : generatePlacements stream 2 1 1 fuel = none :=
    genPlacementsGo_1x1 stream fuel 0 [] (Or.inl rfl)
  refine ⟨hg, ?_⟩
  unfold fieldNew
  rw [if_neg (by omega)]
  rw [hg]

/-- C8 (code bug): on a 2×2 grid, `adjacent_positions(0, 0, true)` returns
the empty list instead of the three in-bounds Moore neighbours
{(0, 1), (1, 0), (1, 1)}: the range `(0usize-1)..=1` underflows and is empty
in release builds (debug builds panic).  The orthogonal mode at (0, 0)
happens to survive in release builds because the wrapped coordinates are
filtered out as out of bounds. -/
theorem c8_adjacent_positions_empty_at_origin :
    ((fieldNew 2 2 0 (fun _ => (0, 0)) 1).map (fun f => adjacentPositionsF f 0 0 true)) =
      some [] ∧
    mooreNeighbors 2 2 0 0 = [(0, 1), (1, 0), (1, 1)] ∧
    ((fieldNew 2 2 0 (fun _ => (0, 0)) 1).map (fun f => adjacentPositionsF f 0 0 false)) =
      some [(1, 0), (0, 1)] := by
  exact ⟨by decide, by decide, by decide⟩

/-- C9 (confirmed): whenever every stacked coordinate is in bounds (as the
seeds and pushed candidates always are), the cascading-reveal worklist loop
finishes within `5 * unrevealedCount + stack length` iterations, cells only
go from unrevealed to revealed (each cell is revealed at most once), and the
number of revealed cells never exceeds `width * height`. -/
theorem c9_cascade_terminates (m : SModel) (stack : List (Nat × Nat))
    (hin : ∀ p ∈ stack, inB m p.1 p.2) :
    ∃ m2, cascadeFuel (5 * unrevealedCount m + stack.length) m stack = CascadeRes.done m2 ∧
      (∀ p, m.revealedAt p = true → m2.revealedAt p = true) ∧
      revealedCount m ≤ revealedCount m2 ∧ revealedCount m2 ≤ m.w * m.h := by
  obtain ⟨m2, hm2⟩ := cascadeDone _ m stack hin le_rfl
  have hsb := cascadeFrame _ _ _ _ hm2
  refine ⟨m2, hm2, hsb.2.2.2.2.2.2, revealedCount_mono hsb, ?_⟩
  have hle := revealedCount_le m2
  rw [hsb.1, hsb.2.1] at hle
  exact hle

theorem c9_cascade_terminates_witness :
    ∃ m2, cascadeFuel (5 * unrevealedCount (constructS 2 2 ∅) + [(0, 0)].length)
        (constructS 2 2 ∅) [(0, 0)] = CascadeRes.done m2 ∧
      (∀ p, (constructS 2 2 ∅).revealedAt p = true → m2.revealedAt p = true) ∧
      revealedCount (constructS 2 2 ∅) ≤ revealedCount m2 ∧
      revealedCount m2 ≤ (constructS 2 2 ∅).w * (constructS 2 2 ∅).h :=
  c9_cascade_terminates (constructS 2 2 ∅) [(0, 0)] (by decide)

/-- C10 (confirmed): for every pair of positive, unequal dimensions,
`Field::new` never completes — whatever the mine count, the random stream
and however long the placement loop runs, construction aborts (the
`set_counts` reset loop indexes the grid out of range, because `width()` and
`height()` return the transposed dimensions of the column-major grid) — and
the `set_counts` stage itself aborts for every placement list. -/
theorem c10_nonsquare_construction_aborts :
    ∀ (w h : Nat), 0 < w → 0 < h → w ≠ h →
      (∀ (numMines fuel : Nat) (stream : Nat → Nat × Nat),
        fieldNew w h numMines stream fuel = none) ∧
      (∀ (numMines : Nat) (pl : List (Nat × Nat)),
        setCounts (mkRawField w h numMines pl) pl = none) :=
  fun _ _ hw hh hne =>
    ⟨fun numMines fuel stream => fieldNew_none_of_ne hw hh hne numMines fuel stream,
     fun numMines pl => setCounts_none_of_ne hw hh hne numMines pl⟩

theorem c10_nonsquare_construction_aborts_witness :
    fieldNew 1 2 0 (fun _ => (0, 0)) 1 = none :=
  (c10_nonsquare_construction_aborts 1 2 (by decide) (by decide) (by decide)).1 0 1
    (fun _ => (0, 0))
